import Mathlib

/-!
Verification of the core claims about the gn meta-build system fork
(label identity, label rendering/resolution, the resolved-target data
engine, duplicate-output detection, and the query-server front end).

Machine integers (`size_t`) are modelled as `Nat` with explicit
reduction modulo `2 ^ 64` where the C++ arithmetic wraps.  Strings are
modelled as `List Char` where character-level parsing matters and as
`String` elsewhere.
-/

/-! ## Labels (`src/gn/label.h`)

A `Label` is the 4-tuple `(dir, name, toolchain_dir, toolchain_name)`.
`StringAtom` values are interned strings: two atoms are equal iff their
underlying strings are equal, and each atom carries a stable hash.  We
model the pool's hash assignment as an arbitrary function
`h : List Char → Nat`; the interning guarantee (equal strings give the
same atom, hence the same hash) is automatic because `h` is a function.
A null `SourceDir` / empty atom is modelled as the empty list. -/

structure Label where
  dir : List Char
  name : List Char
  toolchainDir : List Char
  toolchainName : List Char
  hashC : Nat
deriving DecidableEq, Repr

/-- One wrapping step `a * 131 + b` of the hash mix, in `size_t`
arithmetic (64-bit wrap-around). -/
def hstep (a b : Nat) : Nat := (a * 131 + b) % (2 ^ 64)

/-- The hash mix `Label::ComputeHash` (label.h lines 103-110):
`((dir.hash() * 131 + name.hash()) * 131 + toolchain_dir.hash()) * 131 +
toolchain_name.hash()` computed in `size_t`, i.e. wrapping mod `2 ^ 64`.
The atom hashes themselves are `size_t` values, hence reduced mod
`2 ^ 64`. -/
def computeHash (h : List Char → Nat) (d n td tn : List Char) : Nat :=
  hstep (hstep (hstep (h d % 2 ^ 64) (h n % 2 ^ 64)) (h td % 2 ^ 64)) (h tn % 2 ^ 64)

/-- The four-argument public constructor `Label(dir, name, toolchain_dir,
toolchain_name)` (label.h line 27).  Its body is in label.cc which is not
in evidence; the inline private constructors (label.h lines 94-101) are
plain member initialization, and the cached hash member is initialized
from `ComputeHash` over the freshly set members (label.h line 118). -/
def Label.make (h : List Char → Nat) (d n td tn : List Char) : Label :=
  ⟨d, n, td, tn, computeHash h d n td tn⟩

/-- The two-argument public constructor `Label(dir, name)` (label.h line
33): an empty (null) toolchain. -/
def Label.make2 (h : List Char → Nat) (d n : List Char) : Label :=
  Label.make h d n [] []

/-- Equality `Label::operator==` (label.h lines 70-74): component-wise comparison
of the four fields; the cached hash is not consulted. -/
def Label.beq (a b : Label) : Bool :=
  decide (a.name = b.name) && decide (a.dir = b.dir) &&
    decide (a.toolchainDir = b.toolchainDir) && decide (a.toolchainName = b.toolchainName)

/-- Nullity `SourceDir::is_null` / null atom: the backing string is empty.
`Label::is_null` (label.h line 43) checks `dir_.is_null()`. -/
def isNullStr (s : List Char) : Bool := decide (s = [])

/-- Claim C2: for labels produced by the (public) constructor, `a == b`
holds iff the cached hashes agree and the four components are pairwise
equal; and the hash cached at construction equals a fresh recomputation
of the wrapping formula. -/
theorem label_eq_iff_hash_and_components (h : List Char → Nat)
    (d1 n1 td1 tn1 d2 n2 td2 tn2 : List Char) :
    (Label.beq (Label.make h d1 n1 td1 tn1) (Label.make h d2 n2 td2 tn2) = true ↔
      ((Label.make h d1 n1 td1 tn1).hashC = (Label.make h d2 n2 td2 tn2).hashC ∧
        d1 = d2 ∧ n1 = n2 ∧ td1 = td2 ∧ tn1 = tn2)) ∧
    (Label.make h d1 n1 td1 tn1).hashC = computeHash h d1 n1 td1 tn1 := by
  refine ⟨?_, rfl⟩
  simp only [Label.beq, Label.make, Bool.and_eq_true, decide_eq_true_eq]
  constructor
  · rintro ⟨⟨⟨hn, hd⟩, htd⟩, htn⟩
    subst hn; subst hd; subst htd; subst htn
    exact ⟨rfl, rfl, rfl, rfl, rfl⟩
  · rintro ⟨-, hd, hn, htd, htn⟩
    exact ⟨⟨⟨hn, hd⟩, htd⟩, htn⟩

/-- Claim C6, counterexample: the public four-argument constructor accepts
a null toolchain dir together with a non-null toolchain name, producing a
label with a partial toolchain: the claimed invariant fails for a label
constructible through the public interface. -/
theorem label_unmatched_toolchain_constructible :
    (Label.make (fun _ => 0) ('/' :: '/' :: 'a' :: '/' :: []) ('n' :: [])
        [] ('t' :: 'c' :: [])).toolchainDir = [] ∧
      (Label.make (fun _ => 0) ('/' :: '/' :: 'a' :: '/' :: []) ('n' :: [])
        [] ('t' :: 'c' :: [])).toolchainName ≠ [] := by
  constructor
  · rfl
  · decide

/-- Claim C6, amended: the default and two-argument constructors always
produce a label whose toolchain dir and toolchain name are both null,
and the four-argument constructor stores its arguments unchanged, so its
result satisfies the no-partial-toolchain invariant exactly when the
supplied toolchain dir and toolchain name are null together. -/
theorem label_toolchain_nullity (h : List Char → Nat) (d n td tn : List Char) :
    ((Label.make2 h d n).toolchainDir = [] ∧ (Label.make2 h d n).toolchainName = []) ∧
      ((Label.make h d n td tn).toolchainDir = [] ↔ td = []) ∧
      ((Label.make h d n td tn).toolchainName = [] ↔ tn = []) := by
  exact ⟨⟨rfl, rfl⟩, Iff.rfl, Iff.rfl⟩

/-! ## Label rendering and resolution (spec section 4.2)

`Label::Resolve` and `Label::GetUserVisibleName` are declared in
label.h (lines 38-41 and 59-68) but implemented in label.cc, which is
not in evidence; the definitions below are modelled from the spec. -/

/-- Splits a character list at the first occurrence of `c`; `none` when
`c` does not occur. -/
def splitAtFirst (c : Char) : List Char → Option (List Char × List Char)
  | [] => none
  | a :: rest =>
    if a = c then some ([], rest)
    else match splitAtFirst c rest with
      | none => none
      | some (x, y) => some (a :: x, y)

/-- Modelled from the spec: step 1 of `resolve` (label.cc is missing) —
split off the toolchain suffix at the outermost `(` / `)` pair, if any. -/
def splitToolchain (s : List Char) : List Char × Option (List Char) :=
  match splitAtFirst '(' s with
  | none => (s, none)
  | some (pre, post) =>
    if post.getLast? = some ')' then (pre, some post.dropLast) else (s, none)

/-- Whether two consecutive dots occur anywhere in the list (the `..`
escape that `resolve` must reject). -/
def hasDotDot : List Char → Bool
  | [] => false
  | a :: rest =>
    (match rest with
      | b :: _ => decide (a = '.') && decide (b = '.')
      | [] => false) || hasDotDot rest

/-- Appends a trailing `/` unless one is already present (SourceDir
values always end in `/`). -/
def ensureSlash (l : List Char) : List Char :=
  if l.getLast? = some '/' then l else l ++ ['/']

/-- Whether a dir-part is absolute, i.e. starts with `//`. -/
def isAbs : List Char → Bool
  | '/' :: '/' :: _ => true
  | _ => false

/-- Modelled from the spec: step 3 of `resolve` (label.cc is missing) —
normalize the dir-part to an absolute SourceDir using `cur` as base,
rejecting `..` escapes. -/
def normalizeDir (cur d : List Char) : Option (List Char) :=
  if hasDotDot d then none
  else if isAbs d then some (ensureSlash d) else some (ensureSlash (cur ++ d))

/-- The characters after the last `/` of `l`. -/
def afterLastSlash (l : List Char) : List Char :=
  (l.reverse.takeWhile (fun c => decide (c ≠ '/'))).reverse

/-- The final path component of a SourceDir (which ends in `/`), used to
derive an omitted name. -/
def lastComponent (dir : List Char) : List Char :=
  afterLastSlash dir.dropLast

/-- Modelled from the spec: steps 2-4 of `resolve` (label.cc is
missing) — split the toolchain-free remainder at the first `:`,
normalize the dir-part, and derive the name from the final dir component
when it is empty. -/
def resolveNoTc (cur s : List Char) : Option (List Char × List Char) :=
  match splitAtFirst ':' s with
  | some (dirPart, namePart) =>
    match normalizeDir cur dirPart with
    | none => none
    | some dir =>
      let nm := if namePart = [] then lastComponent dir else namePart
      if nm = [] then none else some (dir, nm)
  | none =>
    match normalizeDir cur s with
    | none => none
    | some dir =>
      let nm := lastComponent dir
      if nm = [] then none else some (dir, nm)

/-- Modelled from the spec: `Label::Resolve` (label.h lines 38-41;
label.cc is missing) — split off the toolchain, resolve the remainder
against `cur`, recursively resolve the toolchain label (rejecting a
nested toolchain) or inherit `curTc`, and construct the label (interning
via the pool hash `h`). -/
def resolve (h : List Char → Nat) (cur : List Char) (curTc : Label)
    (s : List Char) : Option Label :=
  match splitToolchain s with
  | (main, none) =>
    match resolveNoTc cur main with
    | none => none
    | some (d, n) => some (Label.make h d n curTc.toolchainDir curTc.toolchainName)
  | (main, some tcs) =>
    match splitToolchain tcs with
    | (_, some _) => none
    | (tcMain, none) =>
      match resolveNoTc cur tcMain with
      | none => none
      | some (td, tn) =>
        match resolveNoTc cur main with
        | none => none
        | some (d, n) => some (Label.make h d n td tn)

/-- A SourceDir with its trailing slash stripped, for display. -/
def dirNoTrailingSlash (dir : List Char) : List Char := dir.dropLast

/-- Modelled from the spec: `Label::GetUserVisibleName` (label.h lines
59-63; label.cc is missing) — reconstructs `//dir:name`, stripping the
trailing `/` of `dir`, and appends `(toolchain_dir:toolchain_name)` when
requested. -/
def getUserVisibleName (l : Label) (includeToolchain : Bool) : List Char :=
  dirNoTrailingSlash l.dir ++ ':' :: l.name ++
    (if includeToolchain then
      '(' :: (dirNoTrailingSlash l.toolchainDir ++ ':' :: l.toolchainName) ++ [')']
    else [])

/-- None of `:`, `(`, `)` occurs in `l` (sufficient for a string to pass
unscathed through the label grammar's separators). -/
def noSpecial (l : List Char) : Bool :=
  l.all fun c => decide (c ≠ ':') && decide (c ≠ '(') && decide (c ≠ ')')

theorem noSpecial_colon {l : List Char} (hl : noSpecial l = true) : ':' ∉ l := by
  intro hm
  have := (List.all_eq_true.mp hl) _ hm
  simp at this

theorem noSpecial_lparen {l : List Char} (hl : noSpecial l = true) : '(' ∉ l := by
  intro hm
  have := (List.all_eq_true.mp hl) _ hm
  simp at this

theorem splitAtFirst_of_not_mem {c : Char} {a : List Char} (ha : c ∉ a) (b : List Char) :
    splitAtFirst c (a ++ c :: b) = some (a, b) := by
  induction a with
  | nil => simp [splitAtFirst]
  | cons x xs ih =>
    have hx : x ≠ c := fun hc => ha (hc ▸ List.mem_cons_self x xs)
    have hxs : c ∉ xs := fun hc => ha (List.mem_cons_of_mem x hc)
    simp only [List.cons_append, splitAtFirst, if_neg hx]
    rw [List.append_eq, ih hxs]

theorem splitAtFirst_eq_none {c : Char} {s : List Char} (hs : c ∉ s) :
    splitAtFirst c s = none := by
  induction s with
  | nil => rfl
  | cons x xs ih =>
    have hx : x ≠ c := fun hc => hs (hc ▸ List.mem_cons_self x xs)
    have hxs : c ∉ xs := fun hc => hs (List.mem_cons_of_mem x hc)
    simp only [splitAtFirst, if_neg hx, ih hxs]

theorem splitToolchain_append {m tc : List Char} (hm : '(' ∉ m) :
    splitToolchain (m ++ '(' :: (tc ++ [')'])) = (m, some tc) := by
  simp only [splitToolchain, splitAtFirst_of_not_mem hm, List.getLast?_concat,
    List.dropLast_concat, if_true]

theorem splitToolchain_of_no_paren {s : List Char} (hs : '(' ∉ s) :
    splitToolchain s = (s, none) := by
  simp only [splitToolchain, splitAtFirst_eq_none hs]

theorem hasDotDot_cons {a : Char} (l : List Char) (ha : a ≠ '.') :
    hasDotDot (a :: l) = hasDotDot l := by
  cases l with
  | nil => simp [hasDotDot]
  | cons b t => simp [hasDotDot, ha]

theorem getLast?_cons_of_ne_nil {α : Type} (a : α) {l : List α} (hl : l ≠ []) :
    (a :: l).getLast? = l.getLast? := by
  cases l with
  | nil => exact absurd rfl hl
  | cons b t => exact List.getLast?_cons_cons

/-- A well-formed path part: nonempty, free of the grammar's separator
characters, not ending in a slash, and free of `..`. -/
def wfPart (p : List Char) : Prop :=
  p ≠ [] ∧ noSpecial p = true ∧ p.getLast? ≠ some '/' ∧ hasDotDot p = false

theorem normalizeDir_abs (cur : List Char) {p : List Char} (hp : wfPart p) :
    normalizeDir cur ('/' :: '/' :: p) = some ('/' :: '/' :: (p ++ ['/'])) := by
  obtain ⟨hne, -, hslash, hdd⟩ := hp
  have h1 : hasDotDot ('/' :: '/' :: p) = false := by
    rw [hasDotDot_cons _ (by decide), hasDotDot_cons _ (by decide), hdd]
  have h2 : ('/' :: '/' :: p).getLast? = p.getLast? := by
    rw [getLast?_cons_of_ne_nil _ (by simp [hne]), getLast?_cons_of_ne_nil _ hne]
  simp only [normalizeDir, h1, Bool.false_eq_true, if_false, isAbs,
    ensureSlash, h2, if_neg hslash, List.cons_append]
  simp

theorem resolveNoTc_render (cur : List Char) {p : List Char} (nm : List Char)
    (hp : wfPart p) (hnm : nm ≠ []) :
    resolveNoTc cur (('/' :: '/' :: p) ++ ':' :: nm) =
      some ('/' :: '/' :: (p ++ ['/']), nm) := by
  have hcolon : ':' ∉ ('/' :: '/' :: p) := by
    intro hm
    simp only [List.mem_cons] at hm
    rcases hm with h | h | h
    · exact absurd h (by decide)
    · exact absurd h (by decide)
    · exact noSpecial_colon hp.2.1 h
  simp only [resolveNoTc, splitAtFirst_of_not_mem hcolon, normalizeDir_abs cur hp,
    if_neg hnm]

/-- A resolvable label: its dir and toolchain dir are source-absolute
with a nonempty final form, its names are nonempty, none of the parts
contains a grammar separator or a `..` escape, and its cached hash is
consistent with its components (as every constructed label's is). -/
def wfLabel (h : List Char → Nat) (L : Label) : Prop :=
  (∃ p, L.dir = '/' :: '/' :: (p ++ ['/']) ∧ wfPart p) ∧
  L.name ≠ [] ∧ noSpecial L.name = true ∧
  (∃ q, L.toolchainDir = '/' :: '/' :: (q ++ ['/']) ∧ wfPart q) ∧
  L.toolchainName ≠ [] ∧ noSpecial L.toolchainName = true ∧
  L.hashC = computeHash h L.dir L.name L.toolchainDir L.toolchainName

theorem lparen_not_mem_main {p nm : List Char} (hp : noSpecial p = true)
    (hnm : noSpecial nm = true) : '(' ∉ (('/' :: '/' :: p) ++ ':' :: nm) := by
  intro hm
  simp only [List.mem_append, List.mem_cons] at hm
  rcases hm with (h1 | h1 | h1) | (h1 | h1)
  · exact absurd h1 (by decide)
  · exact absurd h1 (by decide)
  · exact noSpecial_lparen hp h1
  · exact absurd h1 (by decide)
  · exact noSpecial_lparen hnm h1

/-- Claim C3: round-trip — resolving (with `current_dir = //` and any
current toolchain) the string produced by rendering a resolvable label
with its toolchain included yields exactly that label. -/
theorem label_render_resolve_roundtrip (h : List Char → Nat) (curTc L : Label)
    (hw : wfLabel h L) :
    resolve h ('/' :: '/' :: []) curTc (getUserVisibleName L true) = some L := by
  obtain ⟨d, n, td, tn, hc⟩ := L
  obtain ⟨⟨p, hdir, hp⟩, hname, hnames, ⟨q, htdir, hq⟩, htname, htnames, hhash⟩ := hw
  simp only at hdir htdir hname hnames htname htnames hhash
  have hdrop : dirNoTrailingSlash d = '/' :: '/' :: p := by
    rw [hdir]
    show ('/' :: '/' :: (p ++ ['/'])).dropLast = _
    have he : '/' :: '/' :: (p ++ ['/']) = ('/' :: '/' :: p) ++ ['/'] := by simp
    rw [he, List.dropLast_concat]
  have htdrop : dirNoTrailingSlash td = '/' :: '/' :: q := by
    rw [htdir]
    show ('/' :: '/' :: (q ++ ['/'])).dropLast = _
    have he : '/' :: '/' :: (q ++ ['/']) = ('/' :: '/' :: q) ++ ['/'] := by simp
    rw [he, List.dropLast_concat]
  have hs : getUserVisibleName ⟨d, n, td, tn, hc⟩ true =
      (('/' :: '/' :: p) ++ ':' :: n) ++
        '(' :: ((('/' :: '/' :: q) ++ ':' :: tn) ++ [')']) := by
    simp only [getUserVisibleName, if_true]
    simp only at hdrop htdrop
    rw [hdrop, htdrop]
    simp [List.append_assoc, List.cons_append]
  rw [hs]
  have hmnp := lparen_not_mem_main hp.2.1 hnames
  have htcnp := lparen_not_mem_main hq.2.1 htnames
  unfold resolve
  rw [splitToolchain_append hmnp]
  simp only
  rw [splitToolchain_of_no_paren htcnp]
  simp only
  rw [resolveNoTc_render _ tn hq htname]
  simp only
  rw [resolveNoTc_render _ n hp hname]
  simp only
  rw [← hdir, ← htdir]
  show some (Label.make h d n td tn) = some (Label.mk d n td tn hc)
  unfold Label.make
  rw [hhash]

/-- Witness for C3: the concrete label `//foo:bar(//tc:def)` round-trips
through rendering and resolution. -/
theorem label_render_resolve_roundtrip_witness :
    resolve (fun _ => 0) ('/' :: '/' :: []) (Label.make2 (fun _ => 0) [] [])
        (getUserVisibleName
          (Label.make (fun _ => 0) ['/', '/', 'f', 'o', 'o', '/'] ['b', 'a', 'r']
            ['/', '/', 't', 'c', '/'] ['d', 'e', 'f']) true) =
      some (Label.make (fun _ => 0) ['/', '/', 'f', 'o', 'o', '/'] ['b', 'a', 'r']
        ['/', '/', 't', 'c', '/'] ['d', 'e', 'f']) :=
  label_render_resolve_roundtrip (fun _ => 0) (Label.make2 (fun _ => 0) [] [])
    (Label.make (fun _ => 0) ['/', '/', 'f', 'o', 'o', '/'] ['b', 'a', 'r']
      ['/', '/', 't', 'c', '/'] ['d', 'e', 'f'])
    ⟨⟨['f', 'o', 'o'], by decide, by decide, by decide, by decide, by decide⟩,
      by decide, by decide,
      ⟨['t', 'c'], by decide, by decide, by decide, by decide, by decide⟩,
      by decide, by decide, rfl⟩

/-! ## Resolved-target data engine (spec section 4.5)

`ResolvedTargetData` exposes only its interface in the header in
evidence (resolved_target_data.h); the implementation file is missing,
so the engine below is modelled from the spec.  Targets are numbered so
that every dependency has a smaller number than its dependent (the
resolved graph is a DAG); a graph maps each target to its direct deps in
declaration order, each tagged with whether it is a public dep. -/

/-- A resolved dependency graph: target `t` has direct deps `g t` in
declaration order, each `(dep, is_public_dep)`. -/
def wfGraph (g : Nat → List (Nat × Bool)) : Prop :=
  ∀ t p, p ∈ g t → p.1 < t

/-- First-match lookup of a target's flag in an ordered
(target, is_public) list. -/
def lookupFlag : List (Nat × Bool) → Nat → Option Bool
  | [], _ => none
  | e :: rest, x => if e.1 = x then some e.2 else lookupFlag rest x

/-- Modelled from the spec: the ordered-dedup insertion of section
4.5.2 (resolved_target_data.cc is missing) — append a new
(target, is_public) entry, or upgrade the existing entry's flag in place
(once public, always public). -/
def insertPair (L : List (Nat × Bool)) (x : Nat) (b : Bool) : List (Nat × Bool) :=
  match lookupFlag L x with
  | none => L ++ [(x, b)]
  | some _ => L.map fun e => if e.1 = x then (e.1, e.2 || b) else e

/-- Modelled from the spec: merging a dep's inherited list, each entry's
flag masked by whether the dep edge itself is public. -/
def appendInherited (L : List (Nat × Bool)) (isPublic : Bool)
    (inh : List (Nat × Bool)) : List (Nat × Bool) :=
  inh.foldl (fun acc e => insertPair acc e.1 (isPublic && e.2)) L

/-- Modelled from the spec: `inherited_libraries` of section 4.5.2
(resolved_target_data.cc is missing), with fuel making the recursion
over the DAG structural — for each direct dep in declaration order,
merge its recursively inherited list and then the dep itself.  On
well-formed graphs any fuel of at least `t` computes the same list. -/
def inheritedF (g : Nat → List (Nat × Bool)) : Nat → Nat → List (Nat × Bool)
  | 0, _ => []
  | fuel + 1, t =>
    (g t).foldl
      (fun L dp => insertPair (appendInherited L dp.2 (inheritedF g fuel dp.1)) dp.1 dp.2)
      []

/-- The getter `ResolvedTargetData::inherited_libraries` (resolved_target_data.h
lines 96-98), modelled from the spec. -/
def inheritedLibraries (g : Nat → List (Nat × Bool)) (t : Nat) : List (Nat × Bool) :=
  inheritedF g t t

/-- Fueled reachability through dep edges (at least one edge). -/
def reachF (g : Nat → List (Nat × Bool)) : Nat → Nat → Nat → Bool
  | 0, _, _ => false
  | fuel + 1, t, x => (g t).any fun dp => decide (dp.1 = x) || reachF g fuel dp.1 x

def reach (g : Nat → List (Nat × Bool)) (t x : Nat) : Bool := reachF g t t x

/-- Fueled existence of a dependency path that goes exclusively through
public dep edges. -/
def pubReachF (g : Nat → List (Nat × Bool)) : Nat → Nat → Nat → Bool
  | 0, _, _ => false
  | fuel + 1, t, x =>
    (g t).any fun dp => dp.2 && (decide (dp.1 = x) || pubReachF g fuel dp.1 x)

def pubReach (g : Nat → List (Nat × Bool)) (t x : Nat) : Bool := pubReachF g t t x

/-- A dependency path from `t` to `x` (one or more edges) that goes
exclusively through public dep edges. -/
inductive PubPath (g : Nat → List (Nat × Bool)) : Nat → Nat → Prop
  | direct {t x : Nat} : (x, true) ∈ g t → PubPath g t x
  | step {t d x : Nat} : (d, true) ∈ g t → PubPath g d x → PubPath g t x

/-- Combination of optional flags: present if either side is, public if
either contribution is. -/
def combine : Option Bool → Option Bool → Option Bool
  | none, o => o
  | some a, none => some a
  | some a, some b => some (a || b)

/-- The flag contributed for target `y` by an entry list, all
occurrences combined. -/
def memFlag : List (Nat × Bool) → Nat → Option Bool
  | [], _ => none
  | e :: rest, y => combine (if e.1 = y then some e.2 else none) (memFlag rest y)

theorem combine_none_right (o : Option Bool) : combine o none = o := by
  cases o <;> rfl

theorem combine_assoc (a b c : Option Bool) :
    combine (combine a b) c = combine a (combine b c) := by
  cases a <;> cases b <;> cases c <;> simp [combine, Bool.or_assoc]

theorem lookupFlag_append (L M : List (Nat × Bool)) (y : Nat) :
    lookupFlag (L ++ M) y =
      match lookupFlag L y with
      | some c => some c
      | none => lookupFlag M y := by
  induction L with
  | nil => rfl
  | cons e rest ih =>
    by_cases he : e.1 = y
    · simp [lookupFlag, he]
    · simp [lookupFlag, he, ih]

theorem lookupFlag_map_upd (L : List (Nat × Bool)) (x : Nat) (b : Bool) (y : Nat) :
    lookupFlag (L.map fun e => if e.1 = x then (e.1, e.2 || b) else e) y =
      if x = y then (lookupFlag L y).map (fun c => c || b) else lookupFlag L y := by
  induction L with
  | nil => by_cases hxy : x = y <;> simp [lookupFlag, hxy]
  | cons e rest ih =>
    simp only [List.map_cons]
    by_cases hex : e.1 = x
    · by_cases hey : e.1 = y
      · have hxy : x = y := by rw [← hex, hey]
        simp [lookupFlag, hex, hey, hxy]
      · have hxy : x ≠ y := fun hc => hey (by rw [hex, hc])
        simp [lookupFlag, hex, hey, hxy, Ne.symm hxy, ih]
    · by_cases hey : e.1 = y
      · have hxy : x ≠ y := fun hc => hex (by rw [hey, hc])
        simp [lookupFlag, hex, hey, hxy, Ne.symm hxy]
      · simp [lookupFlag, hex, hey, ih]

theorem lookupFlag_insertPair (L : List (Nat × Bool)) (x : Nat) (b : Bool) (y : Nat) :
    lookupFlag (insertPair L x b) y =
      combine (lookupFlag L y) (if x = y then some b else none) := by
  unfold insertPair
  cases hx : lookupFlag L x with
  | none =>
    rw [lookupFlag_append]
    cases hy : lookupFlag L y with
    | some c =>
      have hxy : x ≠ y := fun he => by rw [he, hy] at hx; exact Option.noConfusion hx
      simp [combine, hxy]
    | none => by_cases hxy : x = y <;> simp [lookupFlag, hxy, combine]
  | some c =>
    rw [lookupFlag_map_upd]
    by_cases hxy : x = y
    · subst hxy
      simp [hx, combine]
    · simp [hxy, combine_none_right]

theorem lookupFlag_foldl_insert (es : List (Nat × Bool)) (L : List (Nat × Bool)) (y : Nat) :
    lookupFlag (es.foldl (fun acc e => insertPair acc e.1 e.2) L) y =
      combine (lookupFlag L y) (memFlag es y) := by
  induction es generalizing L with
  | nil => simp [memFlag, combine_none_right]
  | cons e rest ih =>
    simp only [List.foldl_cons, memFlag]
    rw [ih, lookupFlag_insertPair, combine_assoc]

theorem memFlag_map_scale (p : Bool) (inh : List (Nat × Bool)) (y : Nat) :
    memFlag (inh.map fun e => (e.1, p && e.2)) y =
      (memFlag inh y).map (fun b => p && b) := by
  induction inh with
  | nil => rfl
  | cons e rest ih =>
    simp only [List.map_cons, memFlag, ih]
    by_cases he : e.1 = y
    · simp only [he, if_pos rfl]
      cases memFlag rest y <;> simp [combine, Bool.and_or_distrib_left]
    · simp only [he, if_neg he]
      rfl

theorem lookupFlag_appendInherited (L : List (Nat × Bool)) (p : Bool)
    (inh : List (Nat × Bool)) (y : Nat) :
    lookupFlag (appendInherited L p inh) y =
      combine (lookupFlag L y) ((memFlag inh y).map (fun b => p && b)) := by
  unfold appendInherited
  rw [← memFlag_map_scale, ← lookupFlag_foldl_insert (inh.map fun e => (e.1, p && e.2)),
    List.foldl_map]

/-- The flag (if any) that a single direct dep contributes for target
`y`: the dep's own inherited entries masked by the edge's publicity,
plus the dep itself. -/
def depContrib (g : Nat → List (Nat × Bool)) (fuel : Nat) (dp : Nat × Bool)
    (y : Nat) : Option Bool :=
  combine ((memFlag (inheritedF g fuel dp.1) y).map (fun b => dp.2 && b))
    (if dp.1 = y then some dp.2 else none)

theorem lookupFlag_body (g : Nat → List (Nat × Bool)) (fuel : Nat)
    (L : List (Nat × Bool)) (dp : Nat × Bool) (y : Nat) :
    lookupFlag (insertPair (appendInherited L dp.2 (inheritedF g fuel dp.1)) dp.1 dp.2) y =
      combine (lookupFlag L y) (depContrib g fuel dp y) := by
  rw [lookupFlag_insertPair, lookupFlag_appendInherited, combine_assoc]
  rfl

theorem lookupFlag_depfold (g : Nat → List (Nat × Bool)) (fuel : Nat)
    (deps : List (Nat × Bool)) (L : List (Nat × Bool)) (y : Nat) :
    lookupFlag
        (deps.foldl
          (fun L dp => insertPair (appendInherited L dp.2 (inheritedF g fuel dp.1)) dp.1 dp.2)
          L) y =
      deps.foldl (fun o dp => combine o (depContrib g fuel dp y)) (lookupFlag L y) := by
  induction deps generalizing L with
  | nil => rfl
  | cons dp rest ih =>
    simp only [List.foldl_cons]
    rw [ih, lookupFlag_body]

/-- Ordered combination of the contributions of a list of deps. -/
def combineList (l : List (Nat × Bool)) (f : Nat × Bool → Option Bool) : Option Bool :=
  match l with
  | [] => none
  | a :: rest => combine (f a) (combineList rest f)

theorem foldl_combine_eq (l : List (Nat × Bool)) (f : Nat × Bool → Option Bool)
    (o : Option Bool) :
    l.foldl (fun o a => combine o (f a)) o = combine o (combineList l f) := by
  induction l generalizing o with
  | nil => simp [combineList, combine_none_right]
  | cons a rest ih =>
    simp only [List.foldl_cons, combineList]
    rw [ih, combine_assoc]

theorem any_false_of_imp {l : List (Nat × Bool)} {p r : Nat × Bool → Bool}
    (hr : l.any r = false) (hpr : ∀ dp ∈ l, p dp = true → r dp = true) :
    l.any p = false := by
  rw [← Bool.not_eq_true] at hr ⊢
  intro hp
  rw [List.any_eq_true] at hp
  obtain ⟨dp, hdp, hpdp⟩ := hp
  exact hr (List.any_eq_true.mpr ⟨dp, hdp, hpr dp hdp hpdp⟩)

theorem combineList_if (l : List (Nat × Bool)) (r p : Nat × Bool → Bool)
    (hpr : ∀ dp ∈ l, p dp = true → r dp = true) :
    combineList l (fun dp => if r dp then some (p dp) else none) =
      if l.any r then some (l.any p) else none := by
  induction l with
  | nil => rfl
  | cons dp rest ih =>
    have ih2 := ih fun e he hp => hpr e (List.mem_cons_of_mem dp he) hp
    simp only [combineList, ih2, List.any_cons]
    by_cases hr : r dp
    · simp only [hr, if_pos rfl, Bool.true_or]
      cases hrest : rest.any r with
      | true => simp [combine, hrest]
      | false =>
        have : rest.any p = false :=
          any_false_of_imp hrest fun e he hp => hpr e (List.mem_cons_of_mem dp he) hp
        simp [combine, hrest, this]
    · have hp : p dp = false := by
        cases hpdp : p dp with
        | false => rfl
        | true => exact absurd (hpr dp (List.mem_cons_self dp rest) hpdp) hr
      rw [Bool.not_eq_true] at hr
      simp only [hr, hp, if_neg (by decide : ¬(false = true))]
      show (if rest.any r = true then some (rest.any p) else none) =
        if (false || rest.any r) = true then some (false || rest.any p) else none
      rw [Bool.false_or, Bool.false_or]

theorem g_zero_nil {g : Nat → List (Nat × Bool)} (hg : wfGraph g) : g 0 = [] := by
  cases hgt : g 0 with
  | nil => rfl
  | cons a l =>
    have := hg 0 a (by rw [hgt]; exact List.mem_cons_self a l)
    omega

theorem any_congr_mem {α : Type} (l : List α) (p q : α → Bool)
    (h : ∀ a ∈ l, p a = q a) : l.any p = l.any q := by
  induction l with
  | nil => rfl
  | cons a rest ih =>
    simp only [List.any_cons, h a (List.mem_cons_self a rest),
      ih fun b hb => h b (List.mem_cons_of_mem a hb)]

theorem inheritedF_stable {g : Nat → List (Nat × Bool)} (hg : wfGraph g) :
    ∀ f1 f2 t, t ≤ f1 → t ≤ f2 → inheritedF g f1 t = inheritedF g f2 t := by
  intro f1
  induction f1 with
  | zero =>
    intro f2 t h1 _
    have ht : t = 0 := Nat.le_zero.mp h1
    subst ht
    cases f2 with
    | zero => rfl
    | succ b => simp [inheritedF, g_zero_nil hg]
  | succ a ih =>
    intro f2 t h1 h2
    cases f2 with
    | zero =>
      have ht : t = 0 := Nat.le_zero.mp h2
      subst ht
      simp [inheritedF, g_zero_nil hg]
    | succ b =>
      cases t with
      | zero => simp [inheritedF, g_zero_nil hg]
      | succ s =>
        simp only [inheritedF]
        apply List.foldl_ext
        intro acc dp hdp
        have hlt : dp.1 < s + 1 := hg (s + 1) dp hdp
        rw [ih b dp.1 (by omega) (by omega)]

theorem reachF_stable {g : Nat → List (Nat × Bool)} (hg : wfGraph g) :
    ∀ f1 f2 t x, t ≤ f1 → t ≤ f2 → reachF g f1 t x = reachF g f2 t x := by
  intro f1
  induction f1 with
  | zero =>
    intro f2 t x h1 _
    have ht : t = 0 := Nat.le_zero.mp h1
    subst ht
    cases f2 with
    | zero => rfl
    | succ b => simp [reachF, g_zero_nil hg]
  | succ a ih =>
    intro f2 t x h1 h2
    cases f2 with
    | zero =>
      have ht : t = 0 := Nat.le_zero.mp h2
      subst ht
      simp [reachF, g_zero_nil hg]
    | succ b =>
      cases t with
      | zero => simp [reachF, g_zero_nil hg]
      | succ s =>
        simp only [reachF]
        apply any_congr_mem
        intro dp hdp
        have hlt : dp.1 < s + 1 := hg (s + 1) dp hdp
        rw [ih b dp.1 x (by omega) (by omega)]

theorem pubReachF_stable {g : Nat → List (Nat × Bool)} (hg : wfGraph g) :
    ∀ f1 f2 t x, t ≤ f1 → t ≤ f2 → pubReachF g f1 t x = pubReachF g f2 t x := by
  intro f1
  induction f1 with
  | zero =>
    intro f2 t x h1 _
    have ht : t = 0 := Nat.le_zero.mp h1
    subst ht
    cases f2 with
    | zero => rfl
    | succ b => simp [pubReachF, g_zero_nil hg]
  | succ a ih =>
    intro f2 t x h1 h2
    cases f2 with
    | zero =>
      have ht : t = 0 := Nat.le_zero.mp h2
      subst ht
      simp [pubReachF, g_zero_nil hg]
    | succ b =>
      cases t with
      | zero => simp [pubReachF, g_zero_nil hg]
      | succ s =>
        simp only [pubReachF]
        apply any_congr_mem
        intro dp hdp
        have hlt : dp.1 < s + 1 := hg (s + 1) dp hdp
        rw [ih b dp.1 x (by omega) (by omega)]

theorem lookupFlag_eq_none_iff (L : List (Nat × Bool)) (x : Nat) :
    lookupFlag L x = none ↔ x ∉ L.map Prod.fst := by
  induction L with
  | nil => simp [lookupFlag]
  | cons e rest ih =>
    by_cases he : e.1 = x
    · simp [lookupFlag, he]
    · simp [lookupFlag, he, ih, Ne.symm he]

theorem keys_map_upd (L : List (Nat × Bool)) (x : Nat) (b : Bool) :
    (L.map fun e => if e.1 = x then (e.1, e.2 || b) else e).map Prod.fst =
      L.map Prod.fst := by
  induction L with
  | nil => rfl
  | cons e rest ih =>
    simp only [List.map_cons, ih, List.cons.injEq, and_true]
    by_cases he : e.1 = x <;> simp [he]

theorem nodup_keys_insertPair {L : List (Nat × Bool)}
    (hL : (L.map Prod.fst).Nodup) (x : Nat) (b : Bool) :
    ((insertPair L x b).map Prod.fst).Nodup := by
  unfold insertPair
  cases hx : lookupFlag L x with
  | none =>
    have hx2 : x ∉ L.map Prod.fst := (lookupFlag_eq_none_iff L x).mp hx
    rw [List.map_append]
    simp [List.nodup_append, hL, hx2]
  | some c =>
    rw [keys_map_upd]
    exact hL

theorem foldl_preserve {α β : Type} (P : α → Prop) (f : α → β → α)
    (hf : ∀ a b, P a → P (f a b)) : ∀ (l : List β) (a : α), P a → P (l.foldl f a) := by
  intro l
  induction l with
  | nil => intro a ha; exact ha
  | cons b rest ih => intro a ha; exact ih (f a b) (hf a b ha)

theorem nodup_keys_inheritedF (g : Nat → List (Nat × Bool)) (fuel t : Nat) :
    ((inheritedF g fuel t).map Prod.fst).Nodup := by
  cases fuel with
  | zero => simp [inheritedF]
  | succ f =>
    simp only [inheritedF]
    exact foldl_preserve (fun L => (L.map Prod.fst).Nodup)
      (fun L dp => insertPair (appendInherited L dp.2 (inheritedF g f dp.1)) dp.1 dp.2)
      (fun L dp hL =>
        nodup_keys_insertPair
          (foldl_preserve (fun L2 => (L2.map Prod.fst).Nodup)
            (fun acc e => insertPair acc e.1 (dp.2 && e.2))
            (fun a e ha => nodup_keys_insertPair ha _ _)
            (inheritedF g f dp.1) L hL) _ _)
      (g t) [] (by simp)

theorem memFlag_eq_lookupFlag {L : List (Nat × Bool)}
    (hL : (L.map Prod.fst).Nodup) (y : Nat) : memFlag L y = lookupFlag L y := by
  induction L with
  | nil => rfl
  | cons e rest ih =>
    simp only [List.map_cons, List.nodup_cons] at hL
    obtain ⟨hnot, hrest⟩ := hL
    simp only [memFlag, lookupFlag]
    by_cases he : e.1 = y
    · have hy : lookupFlag rest y = none := by
        rw [lookupFlag_eq_none_iff]
        rw [he] at hnot
        exact hnot
      rw [ih hrest, hy]
      simp [he, combine_none_right]
    · simp only [he, if_neg he, ih hrest]
      rfl

theorem combineList_congr (l : List (Nat × Bool)) (f f2 : Nat × Bool → Option Bool)
    (h : ∀ a ∈ l, f a = f2 a) : combineList l f = combineList l f2 := by
  induction l with
  | nil => rfl
  | cons a rest ih =>
    simp only [combineList, h a (List.mem_cons_self a rest),
      ih fun b hb => h b (List.mem_cons_of_mem a hb)]

theorem pubReach_imp_reach {g : Nat → List (Nat × Bool)} (hg : wfGraph g) :
    ∀ t x, pubReach g t x = true → reach g t x = true := by
  intro t
  induction t using Nat.strong_induction_on with
  | _ t ih =>
    intro x hp
    match t, hp with
    | s + 1, hp =>
      simp only [pubReach, pubReachF] at hp
      rw [List.any_eq_true] at hp
      obtain ⟨dp, hdp, hval⟩ := hp
      rw [Bool.and_eq_true, Bool.or_eq_true] at hval
      have hlt : dp.1 < s + 1 := hg _ dp hdp
      show reachF g (s + 1) (s + 1) x = true
      simp only [reachF]
      rw [List.any_eq_true]
      refine ⟨dp, hdp, ?_⟩
      rw [Bool.or_eq_true]
      rcases hval.2 with he | hrec
      · exact Or.inl he
      · right
        rw [pubReachF_stable hg s dp.1 dp.1 x (by omega) le_rfl] at hrec
        have := ih dp.1 hlt x hrec
        rw [reachF_stable hg s dp.1 dp.1 x (by omega) le_rfl]
        exact this

theorem depContrib_char {g : Nat → List (Nat × Bool)} (hg : wfGraph g) (s : Nat)
    (dp : Nat × Bool) (hdp : dp.1 ≤ s) (y : Nat)
    (ihdp : lookupFlag (inheritedLibraries g dp.1) y =
      if reach g dp.1 y then some (pubReach g dp.1 y) else none) :
    depContrib g s dp y =
      if (decide (dp.1 = y) || reach g dp.1 y) then
        some (dp.2 && (decide (dp.1 = y) || pubReach g dp.1 y))
      else none := by
  unfold depContrib
  rw [inheritedF_stable hg s dp.1 dp.1 hdp le_rfl,
    memFlag_eq_lookupFlag (nodup_keys_inheritedF g dp.1 dp.1),
    show inheritedF g dp.1 dp.1 = inheritedLibraries g dp.1 from rfl, ihdp]
  by_cases h1 : dp.1 = y
  · cases hr : reach g dp.1 y with
    | true =>
      simp [h1, hr, combine]
      cases dp.2 <;> simp
    | false => simp [h1, hr, combine]
  · cases hr : reach g dp.1 y with
    | true => simp [h1, hr, combine, combine_none_right]
    | false => simp [h1, hr, combine]

theorem lookupFlag_inherited_char {g : Nat → List (Nat × Bool)} (hg : wfGraph g) :
    ∀ t y, lookupFlag (inheritedLibraries g t) y =
      if reach g t y then some (pubReach g t y) else none := by
  intro t
  induction t using Nat.strong_induction_on with
  | _ t ih =>
    intro y
    match t with
    | 0 => simp [inheritedLibraries, inheritedF, lookupFlag, reach, reachF]
    | s + 1 =>
      show lookupFlag (inheritedF g (s + 1) (s + 1)) y = _
      simp only [inheritedF]
      rw [lookupFlag_depfold]
      show (g (s + 1)).foldl (fun o dp => combine o (depContrib g s dp y)) none = _
      rw [foldl_combine_eq]
      show combineList (g (s + 1)) (fun dp => depContrib g s dp y) = _
      have hcong : ∀ dp ∈ g (s + 1), depContrib g s dp y =
          (fun dp : Nat × Bool =>
            if (decide (dp.1 = y) || reach g dp.1 y) then
              some (dp.2 && (decide (dp.1 = y) || pubReach g dp.1 y))
            else none) dp := by
        intro dp hdp
        have hlt : dp.1 < s + 1 := hg _ dp hdp
        exact depContrib_char hg s dp (by omega) y (ih dp.1 hlt y)
      rw [combineList_congr _ _ _ hcong]
      have himp : ∀ dp ∈ g (s + 1),
          (fun dp : Nat × Bool => dp.2 && (decide (dp.1 = y) || pubReach g dp.1 y)) dp = true →
          (fun dp : Nat × Bool => decide (dp.1 = y) || reach g dp.1 y) dp = true := by
        intro dp hdp hp
        simp only [Bool.and_eq_true, Bool.or_eq_true] at hp
        simp only [Bool.or_eq_true]
        rcases hp.2 with he | hrec
        · exact Or.inl he
        · exact Or.inr (pubReach_imp_reach hg dp.1 y hrec)
      rw [combineList_if _ _ _ himp]
      have hreach : reach g (s + 1) y =
          (g (s + 1)).any (fun dp => decide (dp.1 = y) || reach g dp.1 y) := by
        show reachF g (s + 1) (s + 1) y = _
        simp only [reachF]
        apply any_congr_mem
        intro dp hdp
        have hlt : dp.1 < s + 1 := hg _ dp hdp
        rw [reachF_stable hg s dp.1 dp.1 y (by omega) le_rfl]
        rfl
      have hpub : pubReach g (s + 1) y =
          (g (s + 1)).any (fun dp => dp.2 && (decide (dp.1 = y) || pubReach g dp.1 y)) := by
        show pubReachF g (s + 1) (s + 1) y = _
        simp only [pubReachF]
        apply any_congr_mem
        intro dp hdp
        have hlt : dp.1 < s + 1 := hg _ dp hdp
        rw [pubReachF_stable hg s dp.1 dp.1 y (by omega) le_rfl]
        rfl
      rw [hreach, hpub]

theorem lookupFlag_of_mem {L : List (Nat × Bool)} (hL : (L.map Prod.fst).Nodup)
    {x : Nat} {b : Bool} (hm : (x, b) ∈ L) : lookupFlag L x = some b := by
  induction L with
  | nil => cases hm
  | cons e rest ih =>
    simp only [List.map_cons, List.nodup_cons] at hL
    obtain ⟨hnot, hrest⟩ := hL
    rcases List.mem_cons.mp hm with he | he
    · rw [← he]
      simp [lookupFlag]
    · have hx : e.1 ≠ x := by
        intro hc
        apply hnot
        rw [hc]
        exact List.mem_map.mpr ⟨(x, b), he, rfl⟩
      simp [lookupFlag, hx, ih hrest he]

theorem pubPath_imp_pubReach {g : Nat → List (Nat × Bool)} (hg : wfGraph g)
    {t x : Nat} (hp : PubPath g t x) : pubReach g t x = true := by
  induction hp with
  | direct hmem =>
    rename_i t1 x1
    have hlt : x1 < t1 := hg _ _ hmem
    cases t1 with
    | zero => exact absurd hlt (Nat.not_lt_zero x1)
    | succ s =>
      simp only [pubReach, pubReachF]
      rw [List.any_eq_true]
      exact ⟨(x1, true), hmem, by simp⟩
  | step hmem hpath ihp =>
    rename_i t1 d x1
    have hlt : d < t1 := hg _ _ hmem
    cases t1 with
    | zero => exact absurd hlt (Nat.not_lt_zero d)
    | succ s =>
      simp only [pubReach, pubReachF]
      rw [List.any_eq_true]
      refine ⟨(d, true), hmem, ?_⟩
      have hst : pubReachF g s d x1 = pubReach g d x1 :=
        pubReachF_stable hg s d d x1 (by omega) le_rfl
      simp [hst, ihp]

theorem pubReach_iff_pubPath {g : Nat → List (Nat × Bool)} (hg : wfGraph g) :
    ∀ t x, pubReach g t x = true ↔ PubPath g t x := by
  intro t
  induction t using Nat.strong_induction_on with
  | _ t ih =>
    intro x
    refine ⟨?_, pubPath_imp_pubReach hg⟩
    intro hp
    match t, hp with
    | 0, hp => exact absurd hp (by simp [pubReach, pubReachF])
    | s + 1, hp =>
      simp only [pubReach, pubReachF] at hp
      rw [List.any_eq_true] at hp
      obtain ⟨dp, hdp, hval⟩ := hp
      rw [Bool.and_eq_true, Bool.or_eq_true] at hval
      obtain ⟨hpub2, hor⟩ := hval
      have hlt : dp.1 < s + 1 := hg _ dp hdp
      have hdp2 : (dp.1, true) ∈ g (s + 1) := by
        have he : dp = (dp.1, true) := by
          rw [← hpub2]
        rw [← he]
        exact hdp
      rcases hor with he | hrec
      · rw [decide_eq_true_eq] at he
        exact PubPath.direct (he ▸ hdp2)
      · rw [pubReachF_stable hg s dp.1 dp.1 x (by omega) le_rfl] at hrec
        exact PubPath.step hdp2 ((ih dp.1 hlt x).mp hrec)

/-- The concrete graph of the S5 scenario: target 2 is `A`, target 1 is
`C`, target 0 is `B`; `A → B` private, `A → C` public, `C → B` public. -/
def gEx : Nat → List (Nat × Bool)
  | 2 => [(0, false), (1, true)]
  | 1 => [(0, true)]
  | _ => []

theorem wfGraph_gEx : wfGraph gEx := by
  intro t p hp
  match t with
  | 0 => simp [gEx] at hp
  | 1 =>
    simp only [gEx, List.mem_singleton] at hp
    rw [hp]
    decide
  | 2 =>
    simp only [gEx, List.mem_cons, List.mem_singleton, List.not_mem_nil, or_false] at hp
    rcases hp with hp | hp <;> (rw [hp]; decide)
  | n + 3 => simp [gEx] at hp

/-- Claim C1: in `inherited_libraries(T)`, an entry's `is_public` flag is
`true` iff some dependency path from `T` to that entry's target goes
exclusively through public dep edges; and in the graph `A → B`
(private), `A → C` (public), `C → B` (public), `inherited_libraries(A)`
contains `(B, true)` exactly once. -/
theorem inherited_libraries_public_iff :
    (∀ (g : Nat → List (Nat × Bool)) (t x : Nat) (b : Bool), wfGraph g →
      (x, b) ∈ inheritedLibraries g t → (b = true ↔ PubPath g t x)) ∧
    (inheritedLibraries gEx 2).count (0, true) = 1 := by
  constructor
  · intro g t x b hg hm
    have hchar := lookupFlag_inherited_char hg t x
    have hlk := lookupFlag_of_mem (nodup_keys_inheritedF g t t) hm
    rw [show inheritedF g t t = inheritedLibraries g t from rfl] at hlk
    rw [hlk] at hchar
    by_cases hr : reach g t x = true
    · rw [if_pos hr] at hchar
      have hb : b = pubReach g t x := Option.some.inj hchar
      rw [hb]
      exact pubReach_iff_pubPath hg t x
    · rw [if_neg hr] at hchar
      exact absurd hchar (Option.some_ne_none b)
  · decide

/-- Witness for C1: in the S5 graph, the entry for `B` in
`inherited_libraries(A)` carries `is_public = true`, and indeed a
dependency path through public deps only exists. -/
theorem inherited_libraries_public_iff_witness : (true = true ↔ PubPath gEx 2 0) :=
  inherited_libraries_public_iff.1 gEx 2 0 true wfGraph_gEx (by decide)

/-! ## `all_libs` and memoization (spec sections 4.5.1, 4.5.4) -/

/-- A `LibFile` (gn/lib_file.h): either a bare `-lname` style token or a
full path; equality is on the full structural key, so a bare name and a
path never compare equal even over the same characters. -/
inductive LibFile where
  | libName (s : String)
  | libPath (s : String)
deriving DecidableEq, Repr

/-- Order-preserving deduplication: keep the first occurrence of each
structural key. -/
def dedupKeepFirst (xs : List LibFile) : List LibFile :=
  xs.foldl (fun a x => if x ∈ a then a else a ++ [x]) []

/-- Modelled from the spec: `ResolvedTargetData::all_libs`
(resolved_target_data.h lines 64-69; the implementation file is
missing) — the order-preserving deduplicated concatenation of the
target's declared `libs` and the declared `libs` of every target in its
`inherited_libraries` list. -/
def all_libs (g : Nat → List (Nat × Bool)) (decl : Nat → List LibFile)
    (t : Nat) : List LibFile :=
  dedupKeepFirst
    (decl t ++ (inheritedLibraries g t).foldr (fun e acc => decl e.1 ++ acc) [])

theorem nodup_dedup_step {a : List LibFile} (ha : a.Nodup) (x : LibFile) :
    (if x ∈ a then a else a ++ [x]).Nodup := by
  by_cases hx : x ∈ a
  · simp [hx, ha]
  · simp [hx, List.nodup_append, ha]

theorem nodup_dedupKeepFirst (xs : List LibFile) : (dedupKeepFirst xs).Nodup :=
  foldl_preserve List.Nodup _ (fun _ x ha => nodup_dedup_step ha x) xs [] List.nodup_nil

/-- Claim C4: no target appears more than once in `inherited_libraries(T)`
and no library appears more than once in `all_libs(T)`; deduplication is
by the full structural key, so over declared libs `[-lm, path m]` both
entries survive — a bare name token and a path never dedup against each
other. -/
theorem dedup_of_inherited_and_all_libs :
    (∀ (g : Nat → List (Nat × Bool)) (t : Nat),
      ((inheritedLibraries g t).map Prod.fst).Nodup) ∧
    (∀ (g : Nat → List (Nat × Bool)) (decl : Nat → List LibFile) (t : Nat),
      (all_libs g decl t).Nodup) ∧
    all_libs (fun _ => [])
        (fun t => if t = 0 then [LibFile.libName "m", LibFile.libPath "m"] else []) 0 =
      [LibFile.libName "m", LibFile.libPath "m"] := by
  refine ⟨fun g t => nodup_keys_inheritedF g t t,
    fun g decl t => nodup_dedupKeepFirst _, ?_⟩
  decide

/-- Modelled from the spec: the per-target `TargetInfo` payload built by
the engine (resolved_target_data.cc is missing); we carry the
`inherited_libraries` list as the representative computed data. -/
def computeTargetInfo (g : Nat → List (Nat × Bool)) (t : Nat) : List (Nat × Bool) :=
  inheritedLibraries g t

/-- Modelled from the spec: the memoized getter of section 4.5.1 backed
by the mutable cache behind `ResolvedTargetData::impl_`
(resolved_target_data.h lines 105-110; the implementation file is
missing).  Returns the data, the updated cache, and whether this call
built the `TargetInfo`. -/
def getTargetInfo (g : Nat → List (Nat × Bool))
    (cache : Nat → Option (List (Nat × Bool))) (t : Nat) :
    List (Nat × Bool) × (Nat → Option (List (Nat × Bool))) × Bool :=
  match cache t with
  | some info => (info, cache, false)
  | none =>
    (computeTargetInfo g t,
      fun x => if x = t then some (computeTargetInfo g t) else cache x, true)

/-- Claim C5: the first getter call on a fresh engine builds the
`TargetInfo`; a second call on the same engine returns the same data
from the same unchanged cache slot and does not build again — so the
info is built exactly once and repeated calls agree in content and in
the underlying storage. -/
theorem memoized_getter_stable (g : Nat → List (Nat × Bool))
    (cache : Nat → Option (List (Nat × Bool))) (t : Nat) :
    ((getTargetInfo g (fun _ => none) t).2.2 = true) ∧
    ((getTargetInfo g (getTargetInfo g cache t).2.1 t).1 = (getTargetInfo g cache t).1) ∧
    ((getTargetInfo g (getTargetInfo g cache t).2.1 t).2.1 = (getTargetInfo g cache t).2.1) ∧
    ((getTargetInfo g (getTargetInfo g cache t).2.1 t).2.2 = false) := by
  refine ⟨rfl, ?_⟩
  cases hc : cache t with
  | some info => simp [getTargetInfo, hc]
  | none => simp [getTargetInfo, hc]

/-! ## Duplicate-output detection (ninja_build_writer; C7)

Only the unit test (ninja_build_writer_unittest.cc) is in evidence; the
writer itself is modelled from the spec.  A resolved target is a label
together with its output files (as build-dir-relative path strings, the
form in which the writer records and reports them). -/

def lookupSeen : List (String × Label) → String → Option Label
  | [], _ => none
  | e :: rest, o => if e.1 = o then some e.2 else lookupSeen rest o

/-- Modelled from the spec: scanning one target's outputs against the
outputs already seen (ninja_build_writer.cc is missing).  Returns the
extended seen-map, or the first collision `(output, older label, this
label)`. -/
def scanTarget (l : Label) : List (String × Label) → List String →
    Sum (List (String × Label)) (String × Label × Label)
  | seen, [] => .inl seen
  | seen, o :: os =>
    match lookupSeen seen o with
    | some l0 => .inr (o, l0, l)
    | none => scanTarget l ((o, l) :: seen) os

/-- Modelled from the spec: duplicate-output detection across the whole
resolved target set (ninja_build_writer.cc is missing). -/
def findDupCore : List (String × Label) → List (Label × List String) →
    Option (String × Label × Label)
  | _, [] => none
  | seen, (l, outs) :: rest =>
    match scanTarget l seen outs with
    | .inl seen2 => findDupCore seen2 rest
    | .inr d => some d

def findDuplicateOutputs (targets : List (Label × List String)) :
    Option (String × Label × Label) :=
  findDupCore [] targets

/-- Modelled from the spec and the expected text of the
`NinjaBuildWriterTest.DuplicateOutputs` unit test: the help text of the
`DuplicateOutput` error names the colliding output and both labels. -/
def dupHelpText (o : String) (l1 l2 : Label) : String :=
  "Two or more targets generate the same output:\n  " ++ o ++
    "\n\nThis is can often be fixed by changing one of the target names, or by \nsetting an output_name on one of them.\n\nCollisions:\n  " ++
    String.mk (getUserVisibleName l1 false) ++ "\n  " ++
    String.mk (getUserVisibleName l2 false) ++ "\n"

theorem lookupSeen_cons_ne_none {seen : List (String × Label)} {k : String}
    (hk : lookupSeen seen k ≠ none) (e : String × Label) :
    lookupSeen (e :: seen) k ≠ none := by
  by_cases he : e.1 = k <;> simp [lookupSeen, he, hk]

theorem scanTarget_inl_covers {l : Label} :
    ∀ (outs : List String) (seen seen2 : List (String × Label)),
      scanTarget l seen outs = .inl seen2 →
      (∀ k, lookupSeen seen k ≠ none → lookupSeen seen2 k ≠ none) ∧
      (∀ o ∈ outs, lookupSeen seen2 o ≠ none) := by
  intro outs
  induction outs with
  | nil =>
    intro seen seen2 hs
    simp only [scanTarget, Sum.inl.injEq] at hs
    subst hs
    exact ⟨fun k hk => hk, fun o ho => absurd ho (List.not_mem_nil o)⟩
  | cons o os ih =>
    intro seen seen2 hs
    simp only [scanTarget] at hs
    cases hl : lookupSeen seen o with
    | some l0 => rw [hl] at hs; cases hs
    | none =>
      rw [hl] at hs
      obtain ⟨hmono, hcov⟩ := ih ((o, l) :: seen) seen2 hs
      refine ⟨fun k hk => hmono k (lookupSeen_cons_ne_none hk (o, l)), ?_⟩
      intro o2 ho2
      rcases List.mem_cons.mp ho2 with he | he
      · subst he
        apply hmono
        simp [lookupSeen]
      · exact hcov o2 he

theorem scanTarget_inr_of_seen {l : Label} {o : String} :
    ∀ (outs : List String) (seen : List (String × Label)), o ∈ outs →
      lookupSeen seen o ≠ none → ∃ d, scanTarget l seen outs = .inr d := by
  intro outs
  induction outs with
  | nil => intro seen ho; exact absurd ho (List.not_mem_nil o)
  | cons o2 os ih =>
    intro seen ho hseen
    simp only [scanTarget]
    cases hl : lookupSeen seen o2 with
    | some l0 => exact ⟨(o2, l0, l), rfl⟩
    | none =>
      rcases List.mem_cons.mp ho with he | he
      · subst he
        exact absurd hl hseen
      · exact ih ((o2, l) :: seen) he (lookupSeen_cons_ne_none hseen (o2, l))

theorem findDupCore_isSome_of_seen {l2 : Label} {outs2 : List String}
    {o : String} (ho : o ∈ outs2) :
    ∀ (ts : List (Label × List String)) (seen : List (String × Label)) post,
      lookupSeen seen o ≠ none →
      (findDupCore seen (ts ++ (l2, outs2) :: post)).isSome = true := by
  intro ts
  induction ts with
  | nil =>
    intro seen post hseen
    simp only [List.nil_append, findDupCore]
    obtain ⟨d, hd⟩ := scanTarget_inr_of_seen outs2 seen ho hseen
    rw [hd]
    rfl
  | cons tp rest ih =>
    intro seen post hseen
    simp only [List.cons_append, findDupCore]
    cases hs : scanTarget tp.1 seen tp.2 with
    | inr d => rfl
    | inl seen2 =>
      exact ih seen2 post ((scanTarget_inl_covers tp.2 seen seen2 hs).1 o hseen)

theorem findDupCore_isSome {l1 l2 : Label} {outs1 outs2 : List String} {o : String}
    (ho1 : o ∈ outs1) (ho2 : o ∈ outs2) :
    ∀ (pre : List (Label × List String)) (seen : List (String × Label)) mid post,
      (findDupCore seen
        (pre ++ (l1, outs1) :: mid ++ (l2, outs2) :: post)).isSome = true := by
  intro pre
  induction pre with
  | nil =>
    intro seen mid post
    simp only [List.nil_append, findDupCore]
    cases hs : scanTarget l1 seen outs1 with
    | inr d => rfl
    | inl seen2 =>
      exact findDupCore_isSome_of_seen ho2 mid seen2 post
        ((scanTarget_inl_covers outs1 seen seen2 hs).2 o ho1)
  | cons tp rest ih =>
    intro seen mid post
    simp only [List.cons_append, findDupCore]
    cases hs : scanTarget tp.1 seen tp.2 with
    | inr d => rfl
    | inl seen2 => exact ih seen2 mid post

/-- The S3 / `DuplicateOutputs` scenario of the unit test: `//foo:bar`
with outputs `out1.out, out2.out` and `//bar:bar` with outputs
`out3.out, out2.out` (build-dir-relative). -/
def s3Targets : List (Label × List String) :=
  [(Label.make2 (fun _ => 0) "//foo/".data "bar".data,
      ["out1.out", "out2.out"]),
    (Label.make2 (fun _ => 0) "//bar/".data "bar".data,
      ["out3.out", "out2.out"])]

/-- Claim C7: whenever two resolved targets generate the same output file,
duplicate-output detection reports a collision; and in the S3 scenario
it reports `out2.out` colliding between `//foo:bar` and `//bar:bar`,
with the exact help text of the unit test naming the output and both
labels. -/
theorem duplicate_output_detection :
    (∀ (pre mid post : List (Label × List String)) (l1 l2 : Label)
        (outs1 outs2 : List String) (o : String), o ∈ outs1 → o ∈ outs2 →
      (findDuplicateOutputs
        (pre ++ (l1, outs1) :: mid ++ (l2, outs2) :: post)).isSome = true) ∧
    findDuplicateOutputs s3Targets =
      some ("out2.out", Label.make2 (fun _ => 0) "//foo/".data "bar".data,
        Label.make2 (fun _ => 0) "//bar/".data "bar".data) ∧
    dupHelpText "out2.out" (Label.make2 (fun _ => 0) "//foo/".data "bar".data)
        (Label.make2 (fun _ => 0) "//bar/".data "bar".data) =
      "Two or more targets generate the same output:\n  out2.out\n\nThis is can often be fixed by changing one of the target names, or by \nsetting an output_name on one of them.\n\nCollisions:\n  //foo:bar\n  //bar:bar\n" := by
  refine ⟨fun pre mid post l1 l2 outs1 outs2 o ho1 ho2 =>
    findDupCore_isSome ho1 ho2 pre [] mid post, ?_, ?_⟩
  · rfl
  · rfl

/-- Witness for C7: the general collision property applied to the
concrete S3 target list. -/
theorem duplicate_output_detection_witness :
    (findDuplicateOutputs
      ([] ++ (Label.make2 (fun _ => 0) "//foo/".data "bar".data,
          ["out1.out", "out2.out"]) :: [] ++
        (Label.make2 (fun _ => 0) "//bar/".data "bar".data,
          ["out3.out", "out2.out"]) :: [])).isSome = true :=
  duplicate_output_detection.1 [] [] []
    (Label.make2 (fun _ => 0) "//foo/".data "bar".data)
    (Label.make2 (fun _ => 0) "//bar/".data "bar".data)
    ["out1.out", "out2.out"] ["out3.out", "out2.out"] "out2.out"
    (by decide) (by decide)

/-! ## Query server (`src/gn/command_start_server.cc`)

The receive buffer is the fixed 4096-byte `buf` of `args_data`; the
length field `len` is read from the client's message.  `SplitArgs(args,
len)` walks `args[i]` for `0 ≤ i < len`, cutting an argument at every
NUL byte; a trailing partial argument is discarded.  We model the
memory the `args` pointer can reach as a total function `Nat → Char`,
which makes the loop's index range the exact set of bytes read. -/

/-- The size of `args_data::buf` (command_start_server.cc line 63). -/
def kBufSize : Nat := 4096

def nulChar : Char := Char.ofNat 0

/-- One iteration of the `SplitArgs` loop (command_start_server.cc lines
40-47): on a NUL the current argument is pushed and reset, otherwise the
byte is appended to the current argument. -/
def splitStep (args : Nat → Char) (st : List String × String) (i : Nat) :
    List String × String :=
  if args i = nulChar then (st.1 ++ [st.2], "") else (st.1, st.2.push (args i))

/-- The parser `SplitArgs` (command_start_server.cc lines 37-49): the completed
arguments after scanning bytes `0 ≤ i < len`; the trailing partial
argument `arg` is not pushed. -/
def splitArgs (args : Nat → Char) (len : Nat) : List String :=
  ((List.range len).foldl (splitStep args) ([], "")).1

theorem splitArgs_loop_nil_iff (args : Nat → Char) :
    ∀ len, ((List.range len).foldl (splitStep args) ([], "")).1 = [] ↔
      ∀ i, i < len → args i ≠ nulChar := by
  intro len
  induction len with
  | zero => simp
  | succ n ih =>
    rw [List.range_succ, List.foldl_append, List.foldl_cons, List.foldl_nil]
    by_cases hn : args n = nulChar
    · simp only [splitStep, hn, if_pos rfl]
      constructor
      · intro habs
        simp at habs
      · intro hall
        exact absurd hn (hall n (Nat.lt_succ_self n))
    · simp only [splitStep, if_neg hn]
      rw [ih]
      constructor
      · intro hall i hi
        rcases Nat.lt_succ_iff_lt_or_eq.mp hi with hlt | heq
        · exact hall i hlt
        · rw [heq]
          exact hn
      · intro hall i hi
        exact hall i (by omega)

/-- The outcome of one client request, as dispatched by
`HandleClientRequest` (command_start_server.cc lines 101-111). -/
inductive RequestResult where
  | descOk
  | descFailed (msg : String)
  | unsupported (msg : String)
deriving DecidableEq, Repr

/-- The dispatch of `HandleClientRequest` on the first parsed argument
(command_start_server.cc lines 102-111): only `desc` runs a command
(`RunDesc`, whose exit code is abstracted as `runDescExit`); any other
first argument produces the unsupported-command error. -/
def handleRequest (runDescExit : List String → Int) (a0 : String)
    (rest : List String) : RequestResult :=
  if a0 = "desc" then
    if runDescExit (a0 :: rest) = 0 then RequestResult.descOk
    else RequestResult.descFailed "Failed to run desc"
  else RequestResult.unsupported ("Unsupported query command: " ++ a0)

inductive ServerEvent where
  | accepted
  | handled (r : RequestResult)
  | closed
deriving DecidableEq, Repr

/-- One iteration of `StartServerLoop` (command_start_server.cc lines
148-157): accept, handle the single request, then close the connection
unconditionally. -/
def serverIteration (runDescExit : List String → Int) (a0 : String)
    (rest : List String) : List ServerEvent :=
  [ServerEvent.accepted,
    ServerEvent.handled (handleRequest runDescExit a0 rest),
    ServerEvent.closed]

/-- Claim C8: the server dispatches on the first argument: `desc` (and
only `desc`) is executed, any other first argument yields the
unsupported-command error naming that argument, and in both cases the
connection is closed after the single command. -/
theorem server_dispatch_desc_only (runDescExit : List String → Int)
    (a0 : String) (rest : List String) :
    ((handleRequest runDescExit a0 rest = RequestResult.descOk ∨
        handleRequest runDescExit a0 rest = RequestResult.descFailed "Failed to run desc") ↔
      a0 = "desc") ∧
    (a0 ≠ "desc" → handleRequest runDescExit a0 rest =
      RequestResult.unsupported ("Unsupported query command: " ++ a0)) ∧
    (serverIteration runDescExit a0 rest).getLast? = some ServerEvent.closed := by
  refine ⟨?_, ?_, rfl⟩
  · by_cases ha : a0 = "desc"
    · subst ha
      refine ⟨fun _ => rfl, fun _ => ?_⟩
      by_cases hr : runDescExit ("desc" :: rest) = 0
      · exact Or.inl (by simp [handleRequest, hr])
      · exact Or.inr (by simp [handleRequest, hr])
    · simp [handleRequest, ha]
  · intro ha
    simp [handleRequest, ha]

/-- Witness for C8: a request whose first argument is `ls` is rejected
with the unsupported-command error. -/
theorem server_dispatch_desc_only_witness :
    handleRequest (fun _ => 0) "ls" [] =
      RequestResult.unsupported ("Unsupported query command: " ++ "ls") :=
  (server_dispatch_desc_only (fun _ => 0) "ls" []).2.1 (by decide)

/-- A client buffer whose first four bytes are `desc` with no NUL
separator anywhere in the received range. -/
def descNoNulBuf : Nat → Char := fun i =>
  if i = 0 then 'd' else if i = 1 then 'e' else if i = 2 then 's' else 'c'

/-- Claim C9 (code bug): a message containing no NUL byte — here the
four bytes `desc` with `len = 4` — makes `SplitArgs` return the empty
argument list, while `HandleClientRequest` unconditionally reads element
0 of that list (command_start_server.cc line 102): the access is out of
bounds, refuting the claimed in-bounds property. -/
theorem split_args_empty_on_no_nul :
    splitArgs descNoNulBuf 4 = [] ∧ 4 ≤ kBufSize := by
  constructor
  · exact (splitArgs_loop_nil_iff descNoNulBuf 4).mpr (by decide)
  · decide

def bufAllA : Nat → Char := fun _ => 'a'

/-- Memory that agrees with `bufAllA` on every index inside the
4096-byte buffer but holds a NUL directly past its end. -/
def bufNulPast : Nat → Char := fun i => if i = kBufSize then nulChar else 'a'

/-- Claim C10 (code bug): with a client-supplied length of
`kBufSize + 1`, `SplitArgs` reads past the 4096-byte receive buffer: two
memories identical on all in-buffer indices yield different results, so
the byte at index 4096 — outside `args_data::buf` — is read, refuting
the claimed in-bounds property. -/
theorem split_args_reads_past_buffer :
    (∀ i, i < kBufSize → bufAllA i = bufNulPast i) ∧
    splitArgs bufAllA (kBufSize + 1) = [] ∧
    splitArgs bufNulPast (kBufSize + 1) ≠ [] := by
  refine ⟨?_, ?_, ?_⟩
  · intro i hi
    have hne : i ≠ kBufSize := by omega
    simp [bufAllA, bufNulPast, hne]
  · exact (splitArgs_loop_nil_iff bufAllA (kBufSize + 1)).mpr
      (fun i _ => by simp [bufAllA, nulChar])
  · intro habs
    have hall := (splitArgs_loop_nil_iff bufNulPast (kBufSize + 1)).mp habs
    have hnul := hall kBufSize (by omega)
    apply hnul
    simp [bufNulPast]

/-- Witness for C10: index 5 lies inside the buffer, where the two
memories agree. -/
theorem split_args_reads_past_buffer_witness : bufAllA 5 = bufNulPast 5 :=
  split_args_reads_past_buffer.1 5 (by decide)
